import Mathlib

/-!
Verification of the two directory-search scripts of this repository:
`src/search_script.py` (function `search_files`, lines 3-21) and
`src/search_deep.py` (module body, lines 3-29).

The filesystem is modelled as a finite tree of named entries.  A file's raw
bytes are modelled as the list of maximal runs that decode as UTF-8 text
(`Chunk.valid`) interleaved with undecodable byte sequences (`Chunk.invalid`);
`open(path, encoding="utf-8")` raises on a file with an `invalid` chunk, while
`errors="ignore"` drops the invalid chunks and keeps the valid ones.  A file
additionally carries an `ioError` flag modelling any OS-level failure
(permission denied, race-deleted file, ...) raised when opening or reading it.

File contents are modelled with "\n" newlines (the only line terminator the
repository's data uses), and `str.strip()` is modelled as trimming
`Char.isWhitespace` characters from both ends.  `os.walk` yields each
directory's listing with a fixed order (the order of the model tree) and,
as in CPython with `topdown=True`, all files of a directory are handled
before its subdirectories are descended.  Directory names are unique within
a real directory listing, so `dirs.remove(x)` (search_script.py lines 6-9)
and the filter `[d for d in dirs if d not in ignore_dirs]`
(search_deep.py line 11) both amount to pruning every listed subdirectory
whose name is in the ignored set, which is how pruning is modelled.
-/

namespace FleetSearch

/-- A maximal run of bytes of a file: either a run that decodes as UTF-8
text or an undecodable byte sequence. -/
inductive Chunk where
  | valid (s : String)
  | invalid
deriving DecidableEq

/-- A file's on-disk state: its byte content (as decode chunks) and whether
opening/reading it raises an OS error. -/
structure FileData where
  chunks : List Chunk
  ioError : Bool
deriving DecidableEq

/-- A directory tree entry: a file with raw data, or a subdirectory with its
own listing. -/
inductive Entry where
  | file (name : String) (data : FileData)
  | dir (name : String) (children : List Entry)

/-- Result record of the scan, as described by the spec's data model: file
path, matched term, optional 1-based line number, optional trimmed and
truncated line preview. -/
structure FileMatch where
  path : String
  term : String
  line : Option Nat
  preview : Option String
deriving DecidableEq

/-! ### String primitives

Python's `term in content`, `str.endswith`, `str.splitlines`, `str.strip`
and slicing are modelled over `List Char`. -/

/-- Is `needle` a prefix of `hay`? -/
def startsWith : List Char → List Char → Bool
  | [], _ => true
  | _ :: _, [] => false
  | a :: as, b :: bs => if a = b then startsWith as bs else false

/-- Python's `needle in hay`: case-sensitive literal substring containment
(no regex, no normalization). -/
def hasSubstr (needle : List Char) : List Char → Bool
  | [] => startsWith needle []
  | c :: rest => startsWith needle (c :: rest) || hasSubstr needle rest

/-- Number of positions of `hay` at which `needle` occurs. -/
def countSub (needle : List Char) : List Char → Nat
  | [] => if startsWith needle [] then 1 else 0
  | c :: rest => (if startsWith needle (c :: rest) then 1 else 0) + countSub needle rest

/-- Python's `s.endswith(suffix)`. -/
def strEndsWith (s suffix : String) : Bool :=
  startsWith suffix.toList.reverse s.toList.reverse

/-- Python's `str.splitlines()` on "\n"-terminated text: `[]` on the empty
string, and no trailing empty line for text ending in "\n". -/
def splitlines : List Char → List (List Char)
  | [] => []
  | c :: t =>
    if c = '\n' then [] :: splitlines t
    else
      match splitlines t with
      | [] => [[c]]
      | l :: ls => (c :: l) :: ls

/-- Python's `line.strip()[:100]` (search_deep.py line 27): trim whitespace
from both ends, keep the first 100 characters. -/
def stripTrunc (l : List Char) : String :=
  String.mk (((l.dropWhile Char.isWhitespace).reverse.dropWhile Char.isWhitespace).reverse.take 100)

/-- `os.path.join(root, name)` on POSIX paths. -/
def pjoin (root n : String) : String := root ++ "/" ++ n

/-- Iterated `pjoin`: the path of a directory reached from `root` through
the listed components. -/
def joinAll (root : String) (comps : List String) : String :=
  comps.foldl pjoin root

/-! ### Decoding -/

/-- Do all chunks decode (is the file valid UTF-8)? -/
def chunksValid (cs : List Chunk) : Bool :=
  cs.all fun c => match c with | .valid _ => true | .invalid => false

/-- The text recovered by `errors="ignore"`: valid runs concatenated,
undecodable bytes discarded. -/
def decodeIgnore (cs : List Chunk) : String :=
  cs.foldr (fun c acc => match c with | .valid s => s ++ acc | .invalid => acc) ""

/-- `open(path, "r", encoding="utf-8")` followed by `read()`
(search_script.py lines 15-16): fails on an OS error or on any undecodable
byte sequence, otherwise returns the decoded text. -/
def readStrict (d : FileData) : Option String :=
  if d.ioError then none
  else if chunksValid d.chunks then some (decodeIgnore d.chunks) else none

/-- `open(path, "r", encoding="utf-8", errors="ignore")` followed by
`read()` (search_deep.py lines 19-20): fails only on an OS error;
undecodable bytes are dropped, not fatal. -/
def readIgnore (d : FileData) : Option String :=
  if d.ioError then none else some (decodeIgnore d.chunks)

/-! ### The walk

`os.walk` with per-directory pruning, generic in the pruning predicate `pr`
and in the per-file action `pf` (which receives the containing directory's
path, the file's name and its data).  `scanFiles` is the body of the yield:
the files of the current listing, in order; `scanDirs` descends the
non-pruned subdirectories, in order, after the current listing's files. -/

/-- Results of the per-file action over the files of one directory listing. -/
def scanFiles {α : Type} (pf : String → String → FileData → List α) (root : String) :
    List Entry → List α
  | [] => []
  | .file n d :: es => pf root n d ++ scanFiles pf root es
  | .dir _ _ :: es => scanFiles pf root es

/-- Results collected below the non-pruned subdirectories of a listing. -/
def scanDirs {α : Type} (pr : String → Bool) (pf : String → String → FileData → List α)
    (root : String) : List Entry → List α
  | [] => []
  | .file _ _ :: es => scanDirs pr pf root es
  | .dir n cs :: es =>
    (if pr n then []
     else scanFiles pf (pjoin root n) cs ++ scanDirs pr pf (pjoin root n) cs) ++
      scanDirs pr pf root es

/-- One full pruned walk from `root` over the listing `es`, applying the
per-file action to every file of every non-pruned directory, in `os.walk`
order. -/
def scanTree {α : Type} (pr : String → Bool) (pf : String → String → FileData → List α)
    (root : String) (es : List Entry) : List α :=
  scanFiles pf root es ++ scanDirs pr pf root es

/-- The `(dirpath, name, data)` triples of all files the pruned walk
reaches. -/
def filesUnder (pr : String → Bool) (root : String) (es : List Entry) :
    List (String × String × FileData) :=
  scanTree pr (fun r n d => [(r, n, d)]) root es

/-! ### search_script.py -/

/-- The directory names pruned by `search_files` (search_script.py
lines 6-9). -/
def ignoredDirsScript : List String := ["node_modules", ".next"]

/-- Directory pruning of `search_files`. -/
def pruneScript (n : String) : Bool := decide (n ∈ ignoredDirsScript)

/-- The extension allow-list both scripts test with `file.endswith`
(search_script.py line 12, search_deep.py line 14). -/
def allowedExts : List String := [".ts", ".tsx", ".js", ".jsx"]

/-- File admission of `search_files` (search_script.py line 12). -/
def admitScript (n : String) : Bool := allowedExts.any fun e => strEndsWith n e

/-- Per-file body of `search_files` (search_script.py lines 12-20): admit by
extension, read with strict UTF-8 decoding inside `try`, and append the
joined path when the term occurs in the content; any exception is printed
and the file is skipped. -/
def perFileScript (term : String) (root n : String) (d : FileData) : List String :=
  if admitScript n then
    match readStrict d with
    | some content => if hasSubstr term.toList content.toList then [pjoin root n] else []
    | none => []
  else []

/-- `search_files(directory, term)` (search_script.py lines 3-21), with the
tree of `directory` made explicit: the list of matching file paths. -/
def search_files (directory : String) (tree : List Entry) (term : String) : List String :=
  scanTree pruneScript (perFileScript term) directory tree

/-! ### search_deep.py -/

/-- The module-level search terms (search_deep.py line 3). -/
def search_terms : List String :=
  ["next/document", "<Html", "Html ", "from \"next/document\"", "from \x27next/document\x27"]

/-- The module-level ignored directory names (search_deep.py line 4). -/
def ignore_dirs : List String := ["node_modules", ".next", ".git", ".vscode"]

/-- The module-level ignored extension list (search_deep.py line 5).  Note
that no later line of search_deep.py reads this list: admission is decided
by the `file.endswith` allow-list test at line 14. -/
def ignore_exts : List String :=
  [".png", ".jpg", ".jpeg", ".gif", ".ico", ".svg", ".woff", ".woff2", ".ttf",
   ".eot", ".mp4", ".webm", ".map"]

/-- Directory pruning of search_deep.py (line 11):
`dirs[:] = [d for d in dirs if d not in ignore_dirs]`. -/
def pruneDeep (n : String) : Bool := decide (n ∈ ignore_dirs)

/-- File admission of search_deep.py (line 14):
`if not file.endswith((".ts", ".tsx", ".js", ".jsx")): continue`. -/
def admitDeep (n : String) : Bool := allowedExts.any fun e => strEndsWith n e

/-- The deny-list admission policy that §4.1 step 3 of the spec attributes
to one of the scripts, stated from the spec's words ("all except ignored
binary/media extensions") over the `ignore_exts` list: admit every file
whose extension is not ignored.  This is a spec-side definition for
comparison; no line of either script computes it. -/
def denyListAdmit (n : String) : Bool := !(ignore_exts.any fun e => strEndsWith n e)

/-- The records printed for one term against one decoded file content
(search_deep.py lines 22-27): a file-level `MATCH` record when the term
occurs in the content, followed by one line-level record per line
containing the term, with its 1-based index and trimmed 100-character
preview. -/
def scanContentForTerm (path term : String) (content : List Char) : List FileMatch :=
  if hasSubstr term.toList content then
    ⟨path, term, none, none⟩ ::
      (splitlines content).enum.filterMap (fun il =>
        if hasSubstr term.toList il.2 then
          some ⟨path, term, some (il.1 + 1), some (stripTrunc il.2)⟩
        else none)
  else []

/-- Modelled from the spec: per-file body of search_deep.py (lines 13-29).
The loop header `for file in files:` is missing from the committed file
between lines 11 and 13 (the file as committed fails to parse), so, as
§4.1 steps 3-6 of the spec describe, the present loop body is applied to
each file of the directory listing: admit by the extension allow-list of
line 14, read with `errors="ignore"` inside `try`, and emit the records of
every configured term; an OS error is printed and the file is skipped. -/
def perFileDeep (root n : String) (d : FileData) : List FileMatch :=
  if admitDeep n then
    match readIgnore d with
    | some content => search_terms.flatMap fun term => scanContentForTerm (pjoin root n) term content.toList
    | none => []
  else []

/-- The full record sequence of search_deep.py's scan over the tree of the
current directory (`os.walk(".")`, line 9). -/
def search_deep_matches (tree : List Entry) : List FileMatch :=
  scanTree pruneDeep perFileDeep "." tree

/-! ### Tree surgeries and walk invariance -/

/-- Remove every file whose data satisfies `bad`, everywhere in the tree. -/
def dropFailing (bad : FileData → Bool) : List Entry → List Entry
  | [] => []
  | .file n d :: es =>
    if bad d then dropFailing bad es else .file n d :: dropFailing bad es
  | .dir n cs :: es => .dir n (dropFailing bad cs) :: dropFailing bad es

/-- Rewrite every file's data by `h` (which may depend on the file name),
everywhere in the tree. -/
def mapData (h : String → FileData → FileData) : List Entry → List Entry
  | [] => []
  | .file n d :: es => .file n (h n d) :: mapData h es
  | .dir n cs :: es => .dir n (mapData h cs) :: mapData h es

/-- Remove every directory whose name is pruned, with its whole subtree,
everywhere in the tree. -/
def eraseIgnored (pr : String → Bool) : List Entry → List Entry
  | [] => []
  | .file n d :: es => .file n d :: eraseIgnored pr es
  | .dir n cs :: es =>
    if pr n then eraseIgnored pr es
    else .dir n (eraseIgnored pr cs) :: eraseIgnored pr es

/-- Per-file action that records the admitted files the walk opens. -/
def collectAdm (adm : String → Bool) (r n : String) (d : FileData) :
    List (String × String × FileData) :=
  if adm n then [(r, n, d)] else []

/-- The `(dirpath, name, data)` triples of the files `search_files` opens
and reads, in inspection order (search_script.py lines 12-16). -/
def inspectedScript (directory : String) (tree : List Entry) :
    List (String × String × FileData) :=
  scanTree pruneScript (collectAdm admitScript) directory tree

/-- Specification-side count of the file nodes of the tree that match a
given `(dirpath, name, data)` triple, lie outside pruned directories and
are admitted: a direct one-pass recursion over the tree, independent of the
walk's two-pass order. -/
def countNodes (pr adm : String → Bool) (root : String)
    (x : String × String × FileData) : List Entry → Nat
  | [] => 0
  | .file n d :: es =>
    (if adm n = true ∧ (root, n, d) = x then 1 else 0) + countNodes pr adm root x es
  | .dir n cs :: es =>
    (if pr n then 0 else countNodes pr adm (pjoin root n) x cs) + countNodes pr adm root x es

/-! ### Listing reorderings

Two trees are reorderings of each other when every directory holds the same
files and subdirectories, merely listed in a different order — exactly the
leeway `os.walk` has across two invocations on one unchanged tree. -/

/-- `ReorderL es es'`: the listings `es` and `es'` present the same entries
up to order, recursively inside subdirectories. -/
inductive ReorderL : List Entry → List Entry → Prop where
  | nil : ReorderL [] []
  | consFile (n : String) (d : FileData) {l l' : List Entry} :
      ReorderL l l' → ReorderL (.file n d :: l) (.file n d :: l')
  | consDir (n : String) {cs ds l l' : List Entry} :
      ReorderL cs ds → ReorderL l l' → ReorderL (.dir n cs :: l) (.dir n ds :: l')
  | swap (e e' : Entry) (l : List Entry) : ReorderL (e :: e' :: l) (e' :: e :: l)
  | trans {a b c : List Entry} : ReorderL a b → ReorderL b c → ReorderL a c

/-- Reading fails in `search_files` (exception caught at search_script.py
line 19): an OS error, or invalid UTF-8 under strict decoding. -/
def failsScript (d : FileData) : Bool := d.ioError || !chunksValid d.chunks

/-- Reading fails in search_deep.py (exception caught at line 28): an OS
error only, since `errors="ignore"` never fails on decoding. -/
def failsDeep (d : FileData) : Bool := d.ioError

/-! ### Generic walk lemmas -/

/-- Strong induction on listings by size: the hypothesis is available for
every structurally smaller listing, in particular for tails and for
subdirectory listings. -/
theorem entryList_strong_ind (P : List Entry → Prop)
    (step : ∀ es, (∀ cs, sizeOf cs < sizeOf es → P cs) → P es) : ∀ es, P es := by
  have key : ∀ (k : Nat) (l : List Entry), sizeOf l ≤ k → P l := by
    intro k
    induction k with
    | zero =>
      intro l hl
      exact step l fun cs hcs => absurd (Nat.lt_of_lt_of_le hcs hl) (Nat.not_lt_zero _)
    | succ k ih =>
      intro l hl
      exact step l fun cs hcs => ih cs (Nat.le_of_lt_succ (Nat.lt_of_lt_of_le hcs hl))
  exact fun es => key (sizeOf es) es (Nat.le_refl _)

theorem sizeOf_tail_lt (e : Entry) (es : List Entry) : sizeOf es < sizeOf (e :: es) := by
  simp only [List.cons.sizeOf_spec]
  omega

theorem sizeOf_children_lt (n : String) (cs es : List Entry) :
    sizeOf cs < sizeOf (Entry.dir n cs :: es) := by
  simp only [List.cons.sizeOf_spec, Entry.dir.sizeOf_spec]
  omega

/-- Flattening the per-file action out of the files of one listing. -/
theorem scanFiles_flatMap {α : Type} (pf : String → String → FileData → List α) :
    ∀ (es : List Entry) (root : String),
      scanFiles pf root es =
        (scanFiles (fun r n d => [(r, n, d)]) root es).flatMap fun t => pf t.1 t.2.1 t.2.2 := by
  intro es
  induction es with
  | nil => intro root; simp [scanFiles]
  | cons e es ih =>
    intro root
    cases e with
    | file n d => simp [scanFiles, ih]
    | dir n cs => simp [scanFiles, ih]

/-- Flattening the per-file action out of the subdirectory descent. -/
theorem scanDirs_flatMap {α : Type} (pr : String → Bool)
    (pf : String → String → FileData → List α) :
    ∀ (es : List Entry) (root : String),
      scanDirs pr pf root es =
        (scanDirs pr (fun r n d => [(r, n, d)]) root es).flatMap fun t => pf t.1 t.2.1 t.2.2 := by
  refine entryList_strong_ind _ ?_
  intro es IH root
  match es with
  | [] => simp [scanDirs]
  | .file n d :: es =>
    rw [scanDirs, scanDirs]
    exact IH es (sizeOf_tail_lt _ _) root
  | .dir n cs :: es =>
    have hcs := IH cs (sizeOf_children_lt n cs es)
    have hes := IH es (sizeOf_tail_lt _ _)
    by_cases hpr : pr n <;>
      simp [scanDirs, hpr, hcs, hes, scanFiles_flatMap pf cs]

/-- The whole walk is the per-file action flat-mapped over the reached
files. -/
theorem scanTree_flatMap {α : Type} (pr : String → Bool)
    (pf : String → String → FileData → List α) (root : String) (es : List Entry) :
    scanTree pr pf root es = (filesUnder pr root es).flatMap fun t => pf t.1 t.2.1 t.2.2 := by
  simp [scanTree, filesUnder, List.flatMap_append,
    scanFiles_flatMap pf es root, scanDirs_flatMap pr pf es root]

/-- Membership in a walk's results, characterized by the reached file that
produced the element. -/
theorem mem_scanTree {α : Type} (pr : String → Bool)
    (pf : String → String → FileData → List α) (root : String) (es : List Entry) (x : α) :
    x ∈ scanTree pr pf root es ↔
      ∃ r n d, (r, n, d) ∈ filesUnder pr root es ∧ x ∈ pf r n d := by
  rw [scanTree_flatMap]
  simp [List.mem_flatMap, Prod.exists]

/-- Files of one listing are reached at the listing's own path. -/
theorem mem_scanFiles_collect {es : List Entry} {root r n : String} {d : FileData}
    (h : (r, n, d) ∈ scanFiles (fun r n d => [(r, n, d)]) root es) : r = root := by
  induction es with
  | nil => simp [scanFiles] at h
  | cons e es ih =>
    cases e with
    | file n' d' =>
      rw [scanFiles] at h
      rcases List.mem_append.mp h with h' | h'
      · simp at h'
        exact h'.1
      · exact ih h'
    | dir n' cs =>
      rw [scanFiles] at h
      exact ih h

/-- Every directory the descent reaches lies under `root` through
non-pruned components only. -/
theorem mem_scanDirs_collect_shape (pr : String → Bool) :
    ∀ (es : List Entry) (root r n : String) (d : FileData),
      (r, n, d) ∈ scanDirs pr (fun r n d => [(r, n, d)]) root es →
      ∃ comps, r = joinAll root comps ∧ ∀ c ∈ comps, pr c = false := by
  refine entryList_strong_ind _ ?_
  intro es IH root r n d h
  match es with
  | [] => simp [scanDirs] at h
  | .file n' d' :: es =>
    rw [scanDirs] at h
    exact IH es (sizeOf_tail_lt _ _) root r n d h
  | .dir n' cs :: es =>
    rw [scanDirs] at h
    rcases List.mem_append.mp h with h' | h'
    · by_cases hpr : pr n'
      · simp [hpr] at h'
      · simp only [hpr, if_false] at h'
        rcases List.mem_append.mp h' with h'' | h''
        · refine ⟨[n'], mem_scanFiles_collect h'', ?_⟩
          intro c hc
          rcases List.mem_singleton.mp hc with rfl
          exact Bool.eq_false_iff.mpr hpr
        · rcases IH cs (sizeOf_children_lt n' cs es) (pjoin root n') r n d h'' with
            ⟨comps, hj, hall⟩
          refine ⟨n' :: comps, hj, ?_⟩
          intro c hc
          rcases List.mem_cons.mp hc with rfl | hc
          · exact Bool.eq_false_iff.mpr hpr
          · exact hall c hc
    · exact IH es (sizeOf_tail_lt _ _) root r n d h'

/-- Every file the pruned walk reaches lies in a directory reached from
`root` through non-pruned components only. -/
theorem filesUnder_shape (pr : String → Bool) {es : List Entry} {root r n : String}
    {d : FileData} (h : (r, n, d) ∈ filesUnder pr root es) :
    ∃ comps, r = joinAll root comps ∧ ∀ c ∈ comps, pr c = false := by
  rcases List.mem_append.mp h with h' | h'
  · exact ⟨[], mem_scanFiles_collect h', by simp⟩
  · exact mem_scanDirs_collect_shape pr es root r n d h'

theorem scanFiles_dropFailing {α : Type} {bad : FileData → Bool}
    {pf : String → String → FileData → List α}
    (hbad : ∀ r n d, bad d = true → pf r n d = []) :
    ∀ (es : List Entry) (root : String),
      scanFiles pf root (dropFailing bad es) = scanFiles pf root es := by
  intro es
  induction es with
  | nil => intro root; simp [dropFailing]
  | cons e es ih =>
    intro root
    cases e with
    | file n d =>
      by_cases hb : bad d
      · simp [dropFailing, hb, scanFiles, ih, hbad root n d hb]
      · simp [dropFailing, hb, scanFiles, ih]
    | dir n cs => simp [dropFailing, scanFiles, ih]

theorem scanDirs_dropFailing {α : Type} {pr : String → Bool} {bad : FileData → Bool}
    {pf : String → String → FileData → List α}
    (hbad : ∀ r n d, bad d = true → pf r n d = []) :
    ∀ (es : List Entry) (root : String),
      scanDirs pr pf root (dropFailing bad es) = scanDirs pr pf root es := by
  refine entryList_strong_ind _ ?_
  intro es IH root
  match es with
  | [] => simp [dropFailing]
  | .file n d :: es =>
    have hes := IH es (sizeOf_tail_lt _ _)
    by_cases hb : bad d <;> simp [dropFailing, hb, scanDirs, hes]
  | .dir n cs :: es =>
    have hcs := IH cs (sizeOf_children_lt n cs es)
    have hes := IH es (sizeOf_tail_lt _ _)
    simp [dropFailing, scanDirs, hcs, hes, scanFiles_dropFailing hbad cs]

/-- A walk whose per-file action ignores `bad` files does not change when
the `bad` files are removed from the tree. -/
theorem scanTree_dropFailing {α : Type} {pr : String → Bool} {bad : FileData → Bool}
    {pf : String → String → FileData → List α}
    (hbad : ∀ r n d, bad d = true → pf r n d = []) (root : String) (es : List Entry) :
    scanTree pr pf root (dropFailing bad es) = scanTree pr pf root es := by
  simp [scanTree, scanFiles_dropFailing hbad es root, scanDirs_dropFailing hbad es root]

theorem scanFiles_mapData {α : Type} {h : String → FileData → FileData}
    {pf : String → String → FileData → List α}
    (hh : ∀ r n d, pf r n (h n d) = pf r n d) :
    ∀ (es : List Entry) (root : String),
      scanFiles pf root (mapData h es) = scanFiles pf root es := by
  intro es
  induction es with
  | nil => intro root; simp [mapData]
  | cons e es ih =>
    intro root
    cases e with
    | file n d => simp [mapData, scanFiles, ih, hh root n d]
    | dir n cs => simp [mapData, scanFiles, ih]

theorem scanDirs_mapData {α : Type} {pr : String → Bool} {h : String → FileData → FileData}
    {pf : String → String → FileData → List α}
    (hh : ∀ r n d, pf r n (h n d) = pf r n d) :
    ∀ (es : List Entry) (root : String),
      scanDirs pr pf root (mapData h es) = scanDirs pr pf root es := by
  refine entryList_strong_ind _ ?_
  intro es IH root
  match es with
  | [] => simp [mapData]
  | .file n d :: es =>
    have hes := IH es (sizeOf_tail_lt _ _)
    simp [mapData, scanDirs, hes]
  | .dir n cs :: es =>
    have hcs := IH cs (sizeOf_children_lt n cs es)
    have hes := IH es (sizeOf_tail_lt _ _)
    simp [mapData, scanDirs, hcs, hes, scanFiles_mapData hh cs]

/-- A walk whose per-file action is blind to the rewriting `h` of file data
does not change when every file's data is rewritten. -/
theorem scanTree_mapData {α : Type} {pr : String → Bool} {h : String → FileData → FileData}
    {pf : String → String → FileData → List α}
    (hh : ∀ r n d, pf r n (h n d) = pf r n d) (root : String) (es : List Entry) :
    scanTree pr pf root (mapData h es) = scanTree pr pf root es := by
  simp [scanTree, scanFiles_mapData hh es root, scanDirs_mapData hh es root]

theorem scanFiles_eraseIgnored {α : Type} {pr : String → Bool}
    {pf : String → String → FileData → List α} :
    ∀ (es : List Entry) (root : String),
      scanFiles pf root (eraseIgnored pr es) = scanFiles pf root es := by
  intro es
  induction es with
  | nil => intro root; simp [eraseIgnored]
  | cons e es ih =>
    intro root
    cases e with
    | file n d => simp [eraseIgnored, scanFiles, ih]
    | dir n cs => by_cases hpr : pr n <;> simp [eraseIgnored, hpr, scanFiles, ih]

theorem scanDirs_eraseIgnored {α : Type} {pr : String → Bool}
    {pf : String → String → FileData → List α} :
    ∀ (es : List Entry) (root : String),
      scanDirs pr pf root (eraseIgnored pr es) = scanDirs pr pf root es := by
  refine entryList_strong_ind _ ?_
  intro es IH root
  match es with
  | [] => simp [eraseIgnored]
  | .file n d :: es =>
    have hes := IH es (sizeOf_tail_lt _ _)
    simp [eraseIgnored, scanDirs, hes]
  | .dir n cs :: es =>
    have hcs := IH cs (sizeOf_children_lt n cs es)
    have hes := IH es (sizeOf_tail_lt _ _)
    by_cases hpr : pr n <;>
      simp [eraseIgnored, hpr, scanDirs, hcs, hes, scanFiles_eraseIgnored cs]

/-- The walk does not change when the pruned directories are removed from
the tree outright: their contents never influence the results. -/
theorem scanTree_eraseIgnored {α : Type} {pr : String → Bool}
    {pf : String → String → FileData → List α} (root : String) (es : List Entry) :
    scanTree pr pf root (eraseIgnored pr es) = scanTree pr pf root es := by
  simp [scanTree, scanFiles_eraseIgnored es root, scanDirs_eraseIgnored es root]

/-! ### Counting the inspected files -/

theorem count_collectAdm (adm : String → Bool) (r n : String) (d : FileData)
    (x : String × String × FileData) :
    (collectAdm adm r n d).count x = if adm n = true ∧ (r, n, d) = x then 1 else 0 := by
  by_cases ha : adm n
  · by_cases hx : (r, n, d) = x <;>
      simp [collectAdm, ha, hx, List.count_cons]
  · simp [collectAdm, ha]

/-- The walk records each matching admitted file node exactly as often as
it occurs in the tree: no file is skipped and none is visited twice. -/
theorem count_scanTree_collectAdm (pr adm : String → Bool)
    (x : String × String × FileData) :
    ∀ (es : List Entry) (root : String),
      (scanTree pr (collectAdm adm) root es).count x = countNodes pr adm root x es := by
  have key : ∀ (es : List Entry) (root : String),
      (scanFiles (collectAdm adm) root es).count x
        + (scanDirs pr (collectAdm adm) root es).count x = countNodes pr adm root x es := by
    refine entryList_strong_ind _ ?_
    intro es IH root
    match es with
    | [] => simp [scanFiles, scanDirs, countNodes]
    | .file n d :: es =>
      have hes := IH es (sizeOf_tail_lt _ _) root
      rw [scanFiles, scanDirs, countNodes, List.count_append, count_collectAdm]
      omega
    | .dir n cs :: es =>
      have hcs := IH cs (sizeOf_children_lt n cs es) (pjoin root n)
      have hes := IH es (sizeOf_tail_lt _ _) root
      rw [scanFiles, scanDirs, countNodes, List.count_append]
      cases hpr : pr n
      · simp only [Bool.false_eq_true, if_false, List.count_append]
        omega
      · simp only [if_true, List.count_nil]
        omega
  intro es root
  rw [scanTree, List.count_append]
  exact key es root

/-- Counting through a flat map is monotone in the per-element counts. -/
theorem count_flatMap_mono {α β : Type} [BEq β] (F G : α → List β) (y : β)
    (h : ∀ t, (F t).count y ≤ (G t).count y) :
    ∀ l : List α, (l.flatMap F).count y ≤ (l.flatMap G).count y := by
  intro l
  induction l with
  | nil => simp
  | cons a l ih =>
    rw [List.flatMap_cons, List.flatMap_cons, List.count_append, List.count_append]
    exact Nat.add_le_add (h a) ih

theorem mem_scanTree_cons_file {α : Type} (pr : String → Bool)
    (pf : String → String → FileData → List α) (root n : String) (d : FileData)
    (es : List Entry) (x : α) :
    x ∈ scanTree pr pf root (.file n d :: es) ↔
      x ∈ pf root n d ∨ x ∈ scanTree pr pf root es := by
  rw [scanTree, scanFiles, scanDirs, scanTree]
  simp only [List.mem_append, or_assoc]

theorem mem_scanTree_cons_dir {α : Type} (pr : String → Bool)
    (pf : String → String → FileData → List α) (root n : String) (cs es : List Entry)
    (x : α) :
    x ∈ scanTree pr pf root (.dir n cs :: es) ↔
      (pr n = false ∧ x ∈ scanTree pr pf (pjoin root n) cs) ∨
        x ∈ scanTree pr pf root es := by
  rw [scanTree, scanFiles, scanDirs, scanTree, scanTree]
  by_cases hpr : pr n
  · simp [hpr, List.mem_append]
  · simp only [hpr, if_false, List.mem_append, or_assoc, Bool.false_eq_true,
      false_and, false_or, true_and, eq_self_iff_true]
    tauto

/-- The set of results of a walk is unchanged by reordering the directory
listings of the tree. -/
theorem mem_scanTree_reorder {α : Type} (pr : String → Bool)
    (pf : String → String → FileData → List α) {t₁ t₂ : List Entry}
    (h : ReorderL t₁ t₂) :
    ∀ (root : String) (x : α),
      x ∈ scanTree pr pf root t₁ ↔ x ∈ scanTree pr pf root t₂ := by
  induction h with
  | nil => intro root x; exact Iff.rfl
  | consFile n d _ ih =>
    intro root x
    rw [mem_scanTree_cons_file, mem_scanTree_cons_file]
    exact or_congr Iff.rfl (ih root x)
  | consDir n _ _ ihcs ihl =>
    intro root x
    rw [mem_scanTree_cons_dir, mem_scanTree_cons_dir]
    exact or_congr (and_congr Iff.rfl (ihcs _ x)) (ihl root x)
  | swap e e' l =>
    intro root x
    cases e <;> cases e' <;>
      simp only [mem_scanTree_cons_file, mem_scanTree_cons_dir] <;> tauto
  | trans _ _ ih₁ ih₂ =>
    intro root x
    exact (ih₁ root x).trans (ih₂ root x)

/-! ### Per-file characterizations -/

/-- What `search_files` appends for one file (search_script.py
lines 12-18): the joined path, exactly when the file is admitted, reads and
decodes strictly, and contains the term. -/
theorem mem_perFileScript {term root n : String} {d : FileData} {p : String} :
    p ∈ perFileScript term root n d ↔
      admitScript n = true ∧ ∃ c, readStrict d = some c ∧
        hasSubstr term.toList c.toList = true ∧ p = pjoin root n := by
  by_cases ha : admitScript n
  · cases hr : readStrict d with
    | none => simp [perFileScript, ha, hr]
    | some c =>
      by_cases ht : hasSubstr term.toList c.toList <;>
        simp [perFileScript, ha, hr, ht]
  · simp [perFileScript, ha]

/-- Every record emitted for one term carries that term and the file's
path. -/
theorem mem_scanContentForTerm_fields {path term : String} {c : List Char}
    {m : FileMatch} (h : m ∈ scanContentForTerm path term c) :
    m.path = path ∧ m.term = term := by
  unfold scanContentForTerm at h
  by_cases ht : hasSubstr term.toList c
  · rw [if_pos ht] at h
    rcases List.mem_cons.mp h with rfl | h
    · exact ⟨rfl, rfl⟩
    · rcases List.mem_filterMap.mp h with ⟨il, _, hil⟩
      split at hil
      · cases hil
        exact ⟨rfl, rfl⟩
      · cases hil
  · rw [if_neg ht] at h
    cases h

/-- The file-level (`MATCH`) record for a term is emitted exactly when the
term occurs in the file's content. -/
theorem fileRecord_mem_scanContentForTerm {path term p T : String} {c : List Char} :
    (⟨p, T, none, none⟩ : FileMatch) ∈ scanContentForTerm path term c ↔
      hasSubstr term.toList c = true ∧ p = path ∧ T = term := by
  unfold scanContentForTerm
  by_cases ht : hasSubstr term.toList c
  · rw [if_pos ht]
    constructor
    · intro h
      rcases List.mem_cons.mp h with he | h
      · rw [FileMatch.mk.injEq] at he
        exact ⟨ht, he.1, he.2.1⟩
      · exfalso
        rcases List.mem_filterMap.mp h with ⟨il, _, hil⟩
        split at hil
        · rw [Option.some.injEq, FileMatch.mk.injEq] at hil
          cases hil.2.2.1
        · cases hil
    · rintro ⟨_, rfl, rfl⟩
      exact List.mem_cons_self _ _
  · rw [if_neg ht]
    constructor
    · intro h
      cases h
    · rintro ⟨hsub, _, _⟩
      exact absurd hsub ht

/-- What search_deep.py's per-file body emits at file level: a `MATCH`
record for a configured term, exactly when the file is admitted, opens
without an OS error, and its ignore-decoded content contains the term. -/
theorem fileRecord_mem_perFileDeep {root n p T : String} {d : FileData} :
    (⟨p, T, none, none⟩ : FileMatch) ∈ perFileDeep root n d ↔
      admitDeep n = true ∧ d.ioError = false ∧ T ∈ search_terms ∧
        hasSubstr T.toList (decodeIgnore d.chunks).toList = true ∧ p = pjoin root n := by
  by_cases ha : admitDeep n
  · cases hio : d.ioError
    · have hr : readIgnore d = some (decodeIgnore d.chunks) := by
        rw [readIgnore, hio]
        simp
      rw [perFileDeep, if_pos ha, hr]
      simp only [List.mem_flatMap, fileRecord_mem_scanContentForTerm, ha, hio,
        true_and]
      constructor
      · rintro ⟨T', hT', hsub, rfl, rfl⟩
        exact ⟨hT', hsub, rfl⟩
      · rintro ⟨hT, hsub, rfl⟩
        exact ⟨T, hT, hsub, rfl, rfl⟩
    · have hr : readIgnore d = none := by
        rw [readIgnore, hio]
        simp
      rw [perFileDeep, if_pos ha, hr]
      simp [hio]
  · rw [perFileDeep, if_neg ha]
    simp [ha]

/-- Every record search_deep.py emits for a file carries that file's joined
path, and only admitted files emit records. -/
theorem mem_perFileDeep_path {root n : String} {d : FileData} {m : FileMatch}
    (h : m ∈ perFileDeep root n d) : m.path = pjoin root n ∧ admitDeep n = true := by
  by_cases ha : admitDeep n
  · rw [perFileDeep, if_pos ha] at h
    cases hr : readIgnore d with
    | none =>
      rw [hr] at h
      cases h
    | some content =>
      rw [hr] at h
      rcases List.mem_flatMap.mp h with ⟨T', _, hmem⟩
      exact ⟨(mem_scanContentForTerm_fields hmem).1, ha⟩
  · rw [perFileDeep, if_neg ha] at h
    cases h

/-! ### Occurrences and lines -/

theorem startsWith_nil_of_ne {needle : List Char} (hne : needle ≠ []) :
    startsWith needle [] = false := by
  rcases needle with _ | ⟨a, as⟩
  · exact absurd rfl hne
  · rfl

theorem countSub_nil_of_ne {needle : List Char} (hne : needle ≠ []) :
    countSub needle [] = 0 := by
  rw [countSub, startsWith_nil_of_ne hne]
  rfl

theorem startsWith_newline_false {needle : List Char} (hne : needle ≠ [])
    (hnl : '\n' ∉ needle) (t : List Char) : startsWith needle ('\n' :: t) = false := by
  rcases needle with _ | ⟨b, bs⟩
  · exact absurd rfl hne
  · have hb : b ≠ '\n' := fun h => hnl (h ▸ List.mem_cons_self b bs)
    simp [startsWith, hb]

theorem splitlines_newline (t : List Char) :
    splitlines ('\n' :: t) = [] :: splitlines t := by
  rw [splitlines, if_pos rfl]

theorem splitlines_cons_eq_nil {a : Char} {t : List Char} (ha : a ≠ '\n')
    (hs : splitlines t = []) : splitlines (a :: t) = [[a]] := by
  rw [splitlines, if_neg ha, hs]

theorem splitlines_cons_eq_cons {a : Char} {t l : List Char} {ls : List (List Char)}
    (ha : a ≠ '\n') (hs : splitlines t = l :: ls) :
    splitlines (a :: t) = (a :: l) :: ls := by
  rw [splitlines, if_neg ha, hs]

theorem splitlines_eq_nil {t : List Char} : splitlines t = [] ↔ t = [] := by
  cases t with
  | nil => simp [splitlines]
  | cons c t =>
    by_cases hc : c = '\n'
    · subst hc
      rw [splitlines_newline]
      simp
    · cases hs : splitlines t with
      | nil => rw [splitlines_cons_eq_nil hc hs]; simp
      | cons l ls => rw [splitlines_cons_eq_cons hc hs]; simp

/-- The first line produced by `splitlines` is an initial segment of the
text: either the whole text, or the part before a "\n". -/
theorem splitlines_decomp :
    ∀ {t l : List Char} {ls : List (List Char)}, splitlines t = l :: ls →
      (t = l ∧ ls = []) ∨ ∃ r, t = l ++ '\n' :: r := by
  intro t
  induction t with
  | nil => intro l ls h; simp [splitlines] at h
  | cons c t ih =>
    intro l ls h
    by_cases hc : c = '\n'
    · subst hc
      rw [splitlines_newline] at h
      injection h with h1 h2
      subst h1
      exact Or.inr ⟨t, rfl⟩
    · cases hs : splitlines t with
      | nil =>
        rw [splitlines_cons_eq_nil hc hs] at h
        injection h with h1 h2
        subst h1
        have ht : t = [] := splitlines_eq_nil.mp hs
        subst ht
        exact Or.inl ⟨rfl, h2.symm⟩
      | cons l' ls' =>
        rw [splitlines_cons_eq_cons hc hs] at h
        injection h with h1 h2
        subst h1
        subst h2
        rcases ih hs with ⟨rfl, rfl⟩ | ⟨r, rfl⟩
        · exact Or.inl ⟨rfl, rfl⟩
        · exact Or.inr ⟨r, rfl⟩

/-- A needle that contains no newline cannot see past a newline. -/
theorem startsWith_append_newline :
    ∀ {needle : List Char}, '\n' ∉ needle →
      ∀ (u r : List Char), startsWith needle (u ++ '\n' :: r) = startsWith needle u := by
  intro needle
  induction needle with
  | nil => intro _ u r; rfl
  | cons a as ih =>
    intro hnl u r
    cases u with
    | nil =>
      have ha : a ≠ '\n' := fun h => hnl (h ▸ List.mem_cons_self a as)
      simp [startsWith, ha]
    | cons b us =>
      rw [List.cons_append, startsWith, startsWith]
      by_cases hab : a = b
      · rw [if_pos hab, if_pos hab]
        exact ih (fun h => hnl (List.mem_cons_of_mem a h)) us r
      · rw [if_neg hab, if_neg hab]

/-- A term occurs in a text exactly when it has a positive occurrence
count. -/
theorem hasSubstr_iff_countSub_pos (needle : List Char) :
    ∀ h : List Char, hasSubstr needle h = true ↔ 0 < countSub needle h := by
  intro h
  induction h with
  | nil =>
    rw [hasSubstr, countSub]
    cases hsw : startsWith needle [] <;> simp
  | cons c rest ih =>
    rw [hasSubstr, countSub]
    cases hsw : startsWith needle (c :: rest)
    · simp only [Bool.false_or, Bool.false_eq_true, if_false, Nat.zero_add]
      exact ih
    · simp only [Bool.true_or, if_true]
      constructor
      · intro _
        omega
      · intro _
        trivial

/-- For a newline-free needle, the occurrences in a text are exactly the
occurrences in its lines. -/
theorem countSub_splitlines {needle : List Char} (hne : needle ≠ [])
    (hnl : '\n' ∉ needle) :
    ∀ c : List Char, countSub needle c = ((splitlines c).map (countSub needle)).sum := by
  intro c
  induction c with
  | nil => simp [splitlines, countSub_nil_of_ne hne]
  | cons a t ih =>
    by_cases ha : a = '\n'
    · subst ha
      rw [countSub, splitlines_newline, startsWith_newline_false hne hnl]
      simp [countSub_nil_of_ne hne, ih]
    · cases hs : splitlines t with
      | nil =>
        have ht : t = [] := splitlines_eq_nil.mp hs
        subst ht
        rw [splitlines_cons_eq_nil ha hs]
        simp
      | cons l' ls' =>
        rw [splitlines_cons_eq_cons ha hs, countSub, ih, hs]
        simp only [List.map_cons, List.sum_cons]
        rw [countSub]
        have hkey : startsWith needle (a :: t) = startsWith needle (a :: l') := by
          rcases splitlines_decomp hs with ⟨rfl, _⟩ | ⟨r, rfl⟩
          · rfl
          · exact startsWith_append_newline hnl (a :: l') r
        rw [hkey]
        omega

/-- In a list of naturals summing to 1, a positive entry equals 1 and every
other entry is 0. -/
theorem sum_eq_one_unique :
    ∀ (l : List Nat) (j x : Nat), l.get? j = some x → 0 < x → l.sum = 1 →
      x = 1 ∧ ∀ i y, l.get? i = some y → i ≠ j → y = 0 := by
  intro l
  induction l with
  | nil => intro j x hj; cases hj
  | cons a t ih =>
    intro j x hj hx hsum
    rw [List.sum_cons] at hsum
    cases j with
    | zero =>
      rw [List.get?_cons_zero] at hj
      obtain rfl := Option.some.inj hj
      have ht0 : t.sum = 0 := by omega
      refine ⟨by omega, ?_⟩
      intro i y hy hi
      cases i with
      | zero => exact absurd rfl hi
      | succ i =>
        rw [List.get?_cons_succ] at hy
        exact List.sum_eq_zero_iff.mp ht0 y (List.get?_mem hy)
    | succ j =>
      rw [List.get?_cons_succ] at hj
      have hxle : x ≤ t.sum :=
        List.single_le_sum (fun _ _ => Nat.zero_le _) x (List.get?_mem hj)
      have hts : a = 0 ∧ t.sum = 1 := by omega
      obtain ⟨rfl, hts⟩ := hts
      rcases ih j x hj hx hts with ⟨hx1, hall⟩
      refine ⟨hx1, ?_⟩
      intro i y hy hi
      cases i with
      | zero =>
        rw [List.get?_cons_zero] at hy
        exact (Option.some.inj hy).symm
      | succ i =>
        rw [List.get?_cons_succ] at hy
        exact hall i y hy fun h => hi (by rw [h])

theorem enumFrom_filterMap_nil {β : Type} (p : List Char → Bool)
    (f : Nat → List Char → β) :
    ∀ (l : List (List Char)) (k : Nat),
      (∀ i y, l.get? i = some y → p y = false) →
      (List.enumFrom k l).filterMap
        (fun il => if p il.2 then some (f il.1 il.2) else none) = [] := by
  intro l
  induction l with
  | nil => intro k _; rfl
  | cons a t ih =>
    intro k hall
    have h0 : p a = false := hall 0 a rfl
    simp only [List.enumFrom_cons, List.filterMap_cons, h0, Bool.false_eq_true,
      if_false]
    exact ih (k + 1) fun i y hy => hall (i + 1) y hy

/-- When exactly the `j`-th element satisfies the test, the filtered
enumeration is the single image of that element at its shifted index. -/
theorem enumFrom_filterMap_singleton {β : Type} (p : List Char → Bool)
    (f : Nat → List Char → β) :
    ∀ (l : List (List Char)) (k j : Nat) (x : List Char),
      l.get? j = some x → p x = true →
      (∀ i y, l.get? i = some y → i ≠ j → p y = false) →
      (List.enumFrom k l).filterMap
        (fun il => if p il.2 then some (f il.1 il.2) else none) = [f (k + j) x] := by
  intro l
  induction l with
  | nil => intro k j x hj; cases hj
  | cons a t ih =>
    intro k j x hj hx hall
    cases j with
    | zero =>
      rw [List.get?_cons_zero] at hj
      obtain rfl := Option.some.inj hj
      simp only [List.enumFrom_cons, List.filterMap_cons, hx, if_true]
      rw [enumFrom_filterMap_nil p f t (k + 1)
        fun i y hy => hall (i + 1) y (by rw [List.get?_cons_succ]; exact hy) (Nat.succ_ne_zero i)]
      rw [Nat.add_zero]
    | succ j =>
      have h0 : p a = false := hall 0 a rfl (by omega)
      simp only [List.enumFrom_cons, List.filterMap_cons, h0, Bool.false_eq_true,
        if_false]
      rw [ih (k + 1) j x (by rw [List.get?_cons_succ] at hj; exact hj) hx
        fun i y hy hij => hall (i + 1) y (by rw [List.get?_cons_succ]; exact hy) (by omega)]
      have heq : k + 1 + j = k + (j + 1) := by omega
      rw [heq]

/-- A file whose content holds exactly one occurrence of the term, lying on
line `L`, produces exactly the file-level record followed by the single
line-level record for line `L`. -/
theorem scanContentForTerm_unique {path T : String} {lc lt : List Char} {L : Nat}
    (hne : T.toList ≠ []) (hnl : '\n' ∉ T.toList)
    (hcount : countSub T.toList lc = 1) (hL1 : 1 ≤ L)
    (hL : (splitlines lc).get? (L - 1) = some lt)
    (hlt : hasSubstr T.toList lt = true) :
    scanContentForTerm path T lc =
      [⟨path, T, none, none⟩, ⟨path, T, some L, some (stripTrunc lt)⟩] := by
  have hsum : ((splitlines lc).map (countSub T.toList)).sum = 1 := by
    rw [← countSub_splitlines hne hnl]
    exact hcount
  have hmapget : ((splitlines lc).map (countSub T.toList)).get? (L - 1)
      = some (countSub T.toList lt) := by
    rw [List.get?_map, hL]
    rfl
  have hpos : 0 < countSub T.toList lt := (hasSubstr_iff_countSub_pos _ lt).mp hlt
  obtain ⟨-, hall⟩ := sum_eq_one_unique _ (L - 1) _ hmapget hpos hsum
  have hother : ∀ i y, (splitlines lc).get? i = some y → i ≠ L - 1 →
      hasSubstr T.toList y = false := by
    intro i y hy hi
    have h0 : countSub T.toList y = 0 := by
      refine hall i (countSub T.toList y) ?_ hi
      rw [List.get?_map, hy]
      rfl
    refine Bool.eq_false_iff.mpr fun hc => ?_
    have := (hasSubstr_iff_countSub_pos _ y).mp hc
    omega
  have hwhole : hasSubstr T.toList lc = true :=
    (hasSubstr_iff_countSub_pos _ lc).mpr (by rw [hcount]; exact Nat.one_pos)
  rw [scanContentForTerm, if_pos hwhole, List.enum_eq_enumFrom]
  rw [enumFrom_filterMap_singleton (fun l => hasSubstr T.toList l)
    (fun i l => (⟨path, T, some (i + 1), some (stripTrunc l)⟩ : FileMatch))
    (splitlines lc) 0 (L - 1) lt hL hlt hother]
  have hidx : 0 + (L - 1) + 1 = L := by omega
  rw [hidx]

/-- Records of a term different from `T` never satisfy a `T`-selecting
test. -/
theorem filter_scanContent_ne {path T s : String} {lc : List Char}
    (pred : FileMatch → Bool) (hpred : ∀ m, pred m = true → m.term = T)
    (hs : s ≠ T) : (scanContentForTerm path s lc).filter pred = [] := by
  rw [List.filter_eq_nil_iff]
  intro m hm hpm
  exact hs (((mem_scanContentForTerm_fields hm).2).symm.trans (hpred m hpm))

theorem filter_flatMap_term_zero {path T : String} {lc : List Char}
    (pred : FileMatch → Bool) (hpred : ∀ m, pred m = true → m.term = T) :
    ∀ ts : List String, ts.count T = 0 →
      ((ts.flatMap fun s => scanContentForTerm path s lc).filter pred) = [] := by
  intro ts
  induction ts with
  | nil => intro _; rfl
  | cons s ts ih =>
    intro hc
    rw [List.count_cons] at hc
    have hs : s ≠ T := by
      intro h
      subst h
      simp at hc
    have hts : ts.count T = 0 := by omega
    rw [List.flatMap_cons, List.filter_append, ih hts,
      filter_scanContent_ne pred hpred hs]
    rfl

/-- Selecting the records of a term occurring once in the configured list
reduces the whole per-file output to that term's records. -/
theorem filter_flatMap_term_one {path T : String} {lc : List Char}
    (pred : FileMatch → Bool) (hpred : ∀ m, pred m = true → m.term = T) :
    ∀ ts : List String, ts.count T = 1 →
      ((ts.flatMap fun s => scanContentForTerm path s lc).filter pred)
        = (scanContentForTerm path T lc).filter pred := by
  intro ts
  induction ts with
  | nil => intro hc; simp at hc
  | cons s ts ih =>
    intro hc
    rw [List.count_cons] at hc
    by_cases hs : s = T
    · subst hs
      have hts : ts.count s = 0 := by simp at hc; omega
      rw [List.flatMap_cons, List.filter_append,
        filter_flatMap_term_zero pred hpred ts hts, List.append_nil]
    · have hts : ts.count T = 1 := by
        have : (if (s == T) = true then 1 else 0) = 0 := by
          rw [if_neg]
          simp [hs]
        omega
      rw [List.flatMap_cons, List.filter_append, ih hts,
        filter_scanContent_ne pred hpred hs, List.nil_append]

/-! ### Flattened forms of the two scans -/

theorem search_files_eq_flatMap (directory term : String) (tree : List Entry) :
    search_files directory tree term =
      (filesUnder pruneScript directory tree).flatMap
        fun t => perFileScript term t.1 t.2.1 t.2.2 :=
  scanTree_flatMap _ _ _ _

theorem search_deep_eq_flatMap (tree : List Entry) :
    search_deep_matches tree =
      (filesUnder pruneDeep "." tree).flatMap fun t => perFileDeep t.1 t.2.1 t.2.2 :=
  scanTree_flatMap _ _ _ _

/-! ## The claims -/

/-- C1: for every admitted (non-pruned, extension-included) file, a
file-level match record for a term is produced if and only if the term
occurs as a case-sensitive literal substring of the file's decoded content
(strict decoding for `search_files`, ignore-decoding for search_deep.py);
in particular a file containing the term zero times produces no record, and
matching is plain literal containment, with no regex and no case
normalization. -/
theorem spec_C1 (directory term : String) (tree : List Entry) :
    (∀ p, p ∈ search_files directory tree term ↔
      ∃ r n d c, (r, n, d) ∈ filesUnder pruneScript directory tree ∧
        admitScript n = true ∧ readStrict d = some c ∧
        hasSubstr term.toList c.toList = true ∧ p = pjoin r n) ∧
    (∀ p T, (⟨p, T, none, none⟩ : FileMatch) ∈ search_deep_matches tree ↔
      ∃ r n d, (r, n, d) ∈ filesUnder pruneDeep "." tree ∧
        admitDeep n = true ∧ d.ioError = false ∧ T ∈ search_terms ∧
        hasSubstr T.toList (decodeIgnore d.chunks).toList = true ∧ p = pjoin r n) := by
  constructor
  · intro p
    rw [search_files, mem_scanTree]
    constructor
    · rintro ⟨r, n, d, hmem, hp⟩
      rcases mem_perFileScript.mp hp with ⟨ha, c, hr, ht, rfl⟩
      exact ⟨r, n, d, c, hmem, ha, hr, ht, rfl⟩
    · rintro ⟨r, n, d, c, hmem, ha, hr, ht, rfl⟩
      exact ⟨r, n, d, hmem, mem_perFileScript.mpr ⟨ha, c, hr, ht, rfl⟩⟩
  · intro p T
    rw [search_deep_matches, mem_scanTree]
    constructor
    · rintro ⟨r, n, d, hmem, hp⟩
      rcases fileRecord_mem_perFileDeep.mp hp with ⟨ha, hio, hT, ht, rfl⟩
      exact ⟨r, n, d, hmem, ha, hio, hT, ht, rfl⟩
    · rintro ⟨r, n, d, hmem, ha, hio, hT, ht, rfl⟩
      exact ⟨r, n, d, hmem, fileRecord_mem_perFileDeep.mpr ⟨ha, hio, hT, ht, rfl⟩⟩

/-- C2: an admitted, readable file whose content contains the configured
term `T` exactly once, on line `L`, contributes exactly one file-level
match for `T` and exactly one line-level match for `T` carrying the 1-based
line number `L` (per-file contribution of search_deep.py lines 13-27; by
`search_deep_eq_flatMap` a single scan's output is the concatenation of the
per-file contributions). -/
theorem spec_C2 (root n T : String) (d : FileData) (L : Nat) (lt : List Char)
    (hadm : admitDeep n = true) (hio : d.ioError = false)
    (hterm : search_terms.count T = 1)
    (hne : T.toList ≠ []) (hnl : '\n' ∉ T.toList)
    (hcount : countSub T.toList (decodeIgnore d.chunks).toList = 1)
    (hL1 : 1 ≤ L)
    (hL : (splitlines (decodeIgnore d.chunks).toList).get? (L - 1) = some lt)
    (hlt : hasSubstr T.toList lt = true) :
    ((perFileDeep root n d).filter fun m => m.term == T && m.line.isNone).length = 1 ∧
      ((perFileDeep root n d).filter fun m => m.term == T && m.line.isSome).map
        (fun m => m.line) = [some L] := by
  have hr : readIgnore d = some (decodeIgnore d.chunks) := by
    rw [readIgnore, hio]
    simp
  have hpred1 : ∀ m : FileMatch, (m.term == T && m.line.isNone) = true → m.term = T := by
    intro m hm
    rw [Bool.and_eq_true] at hm
    exact beq_iff_eq.mp hm.1
  have hpred2 : ∀ m : FileMatch, (m.term == T && m.line.isSome) = true → m.term = T := by
    intro m hm
    rw [Bool.and_eq_true] at hm
    exact beq_iff_eq.mp hm.1
  rw [perFileDeep, if_pos hadm, hr]
  rw [filter_flatMap_term_one _ hpred1 search_terms hterm,
    filter_flatMap_term_one _ hpred2 search_terms hterm,
    scanContentForTerm_unique hne hnl hcount hL1 hL hlt]
  simp

/-- C2 witness: a concrete admitted file containing "<Html" exactly once,
on line 2, yields one file-level record and the single line-level record
for line 2. -/
theorem spec_C2_witness :
    ((perFileDeep "." "c.tsx" ⟨[Chunk.valid "a\n<Html x\nb"], false⟩).filter
        fun m => m.term == "<Html" && m.line.isNone).length = 1 ∧
      ((perFileDeep "." "c.tsx" ⟨[Chunk.valid "a\n<Html x\nb"], false⟩).filter
        fun m => m.term == "<Html" && m.line.isSome).map (fun m => m.line)
        = [some 2] :=
  spec_C2 "." "c.tsx" "<Html" ⟨[Chunk.valid "a\n<Html x\nb"], false⟩ 2
    "<Html x".toList (by decide) (by decide) (by decide) (by decide) (by decide)
    (by decide) (by decide) (by decide) (by decide)

/-- C3: no match of either scan references a path inside an
ignored-directory subtree: both scans are unchanged when every ignored
directory is erased with its entire subtree (pruning happens before
descent, so ignored contents are never opened or read), and every produced
path joins a file name onto a directory reached from the root through
non-ignored components only. -/
theorem spec_C3 (directory term : String) (tree : List Entry) :
    (search_files directory tree term
        = search_files directory (eraseIgnored pruneScript tree) term ∧
      search_deep_matches tree
        = search_deep_matches (eraseIgnored pruneDeep tree)) ∧
    (∀ p, p ∈ search_files directory tree term →
      ∃ comps n, p = pjoin (joinAll directory comps) n ∧
        ∀ c ∈ comps, c ∉ ignoredDirsScript) ∧
    (∀ m, m ∈ search_deep_matches tree →
      ∃ comps n, m.path = pjoin (joinAll "." comps) n ∧
        ∀ c ∈ comps, c ∉ ignore_dirs) := by
  refine ⟨⟨(scanTree_eraseIgnored directory tree).symm,
    (scanTree_eraseIgnored "." tree).symm⟩, ?_, ?_⟩
  · intro p hp
    rw [search_files, mem_scanTree] at hp
    rcases hp with ⟨r, n, d, hmem, hpf⟩
    rcases mem_perFileScript.mp hpf with ⟨-, c, -, -, rfl⟩
    rcases filesUnder_shape pruneScript hmem with ⟨comps, rfl, hall⟩
    refine ⟨comps, n, rfl, ?_⟩
    intro c' hc' hmem'
    have hfalse := hall c' hc'
    rw [pruneScript] at hfalse
    simp [hmem'] at hfalse
  · intro m hm
    rw [search_deep_matches, mem_scanTree] at hm
    rcases hm with ⟨r, n, d, hmem, hpf⟩
    have hpath := (mem_perFileDeep_path hpf).1
    rcases filesUnder_shape pruneDeep hmem with ⟨comps, rfl, hall⟩
    refine ⟨comps, n, hpath, ?_⟩
    intro c' hc' hmem'
    have hfalse := hall c' hc'
    rw [pruneDeep] at hfalse
    simp [hmem'] at hfalse

/-- C3 witness: on a concrete tree holding the term both under
`node_modules` and in an admitted file at the root, the produced match path
decomposes through non-ignored components. -/
theorem spec_C3_witness :
    "./a.tsx" ∈ search_files "."
        [Entry.dir "node_modules" [Entry.file "c.tsx" ⟨[Chunk.valid "<Html"], false⟩],
         Entry.file "a.tsx" ⟨[Chunk.valid "<Html"], false⟩] "<Html" ∧
      ∃ comps n, "./a.tsx" = pjoin (joinAll "." comps) n ∧
        ∀ c ∈ comps, c ∉ ignoredDirsScript :=
  ⟨by decide,
    (spec_C3 "." "<Html"
      [Entry.dir "node_modules" [Entry.file "c.tsx" ⟨[Chunk.valid "<Html"], false⟩],
       Entry.file "a.tsx" ⟨[Chunk.valid "<Html"], false⟩]).2.1 "./a.tsx" (by decide)⟩

/-- C4: files whose extension is excluded by the admission policy never
contribute: both scans are unchanged when the data of every non-admitted
file is replaced arbitrarily (so a `.png` holding the term's bytes is never
read), and every produced match comes from an admitted file. -/
theorem spec_C4 (directory term : String) (tree : List Entry)
    (g : String → FileData → FileData) :
    (search_files directory
        (mapData (fun n d => if admitScript n then d else g n d) tree) term
      = search_files directory tree term) ∧
    (search_deep_matches (mapData (fun n d => if admitDeep n then d else g n d) tree)
      = search_deep_matches tree) ∧
    (∀ p, p ∈ search_files directory tree term →
      ∃ r n d, (r, n, d) ∈ filesUnder pruneScript directory tree ∧
        admitScript n = true ∧ p = pjoin r n) ∧
    (∀ m, m ∈ search_deep_matches tree →
      ∃ r n d, (r, n, d) ∈ filesUnder pruneDeep "." tree ∧
        admitDeep n = true ∧ m.path = pjoin r n) := by
  refine ⟨?_, ?_, ?_, ?_⟩
  · refine scanTree_mapData ?_ directory tree
    intro r n d
    by_cases ha : admitScript n
    · rw [if_pos ha]
    · rw [if_neg ha]
      simp [perFileScript, ha]
  · refine scanTree_mapData ?_ "." tree
    intro r n d
    by_cases ha : admitDeep n
    · rw [if_pos ha]
    · rw [if_neg ha]
      simp [perFileDeep, ha]
  · intro p hp
    rw [search_files, mem_scanTree] at hp
    rcases hp with ⟨r, n, d, hmem, hpf⟩
    rcases mem_perFileScript.mp hpf with ⟨ha, c, -, -, rfl⟩
    exact ⟨r, n, d, hmem, ha, rfl⟩
  · intro m hm
    rw [search_deep_matches, mem_scanTree] at hm
    rcases hm with ⟨r, n, d, hmem, hpf⟩
    rcases mem_perFileDeep_path hpf with ⟨hpath, ha⟩
    exact ⟨r, n, d, hmem, ha, hpath⟩

/-- C4 witness: with a `.png` file holding the term's bytes next to an
admitted `.ts` file, the match produced for the admitted file originates
from an admitted file. -/
theorem spec_C4_witness :
    "./b.ts" ∈ search_files "."
        [Entry.file "a.png" ⟨[Chunk.valid "<Html"], false⟩,
         Entry.file "b.ts" ⟨[Chunk.valid "<Html"], false⟩] "<Html" ∧
      ∃ r n d, (r, n, d) ∈ filesUnder pruneScript "."
          [Entry.file "a.png" ⟨[Chunk.valid "<Html"], false⟩,
           Entry.file "b.ts" ⟨[Chunk.valid "<Html"], false⟩] ∧
        admitScript n = true ∧ "./b.ts" = pjoin r n :=
  ⟨by decide,
    (spec_C4 "." "<Html"
      [Entry.file "a.png" ⟨[Chunk.valid "<Html"], false⟩,
       Entry.file "b.ts" ⟨[Chunk.valid "<Html"], false⟩]
      (fun _ d => d)).2.2.1 "./b.ts" (by decide)⟩

/-- C5: every failure opening, reading or decoding one file is confined to
that file: the records of each scan over a tree are exactly the records of
the scan over the same tree with all failing files removed (OS errors and
strict-decode failures for `search_files`; OS errors for search_deep.py,
whose `errors="ignore"` decoding cannot fail). -/
theorem spec_C5 (directory term : String) (tree : List Entry) :
    search_files directory tree term
        = search_files directory (dropFailing failsScript tree) term ∧
      search_deep_matches tree
        = search_deep_matches (dropFailing failsDeep tree) := by
  constructor
  · refine (scanTree_dropFailing ?_ directory tree).symm
    intro r n d hb
    rw [failsScript] at hb
    have hread : readStrict d = none := by
      by_cases hio : d.ioError
      · simp [readStrict, hio]
      · have hcv : chunksValid d.chunks = false := by
          rcases (by simpa using hb :
              d.ioError = true ∨ chunksValid d.chunks = false) with h | h
          · exact absurd h hio
          · exact h
        simp [readStrict, hio, hcv]
    simp [perFileScript, hread]
  · refine (scanTree_dropFailing ?_ "." tree).symm
    intro r n d hb
    rw [failsDeep] at hb
    have hread : readIgnore d = none := by
      simp [readIgnore, hb]
    simp [perFileDeep, hread]

/-- C6: within one invocation, `search_files` opens every admitted file of
every non-pruned directory exactly as often as it occurs in the tree —
never zero times and never twice — and each file contributes at most one
path per term to the result. -/
theorem spec_C6 (directory term p : String) (tree : List Entry)
    (x : String × String × FileData) :
    (inspectedScript directory tree).count x
        = countNodes pruneScript admitScript directory x tree ∧
      (search_files directory tree term).count p
        ≤ ((inspectedScript directory tree).map fun t => pjoin t.1 t.2.1).count p := by
  constructor
  · exact count_scanTree_collectAdm pruneScript admitScript x tree directory
  · have hmap : (inspectedScript directory tree).map (fun t => pjoin t.1 t.2.1)
        = (filesUnder pruneScript directory tree).flatMap
            fun t => (collectAdm admitScript t.1 t.2.1 t.2.2).map
              fun u => pjoin u.1 u.2.1 := by
      rw [inspectedScript, scanTree_flatMap, List.map_flatMap]
    rw [search_files_eq_flatMap, hmap]
    refine count_flatMap_mono _ _ p ?_ (filesUnder pruneScript directory tree)
    rintro ⟨r, n, d⟩
    by_cases ha : admitScript n
    · cases hr : readStrict d with
      | none => simp [perFileScript, ha, hr]
      | some c =>
        by_cases ht : hasSubstr term.toList c.toList
        · have ht' : hasSubstr term.data c.data = true := ht
          simp [perFileScript, ha, hr, ht', collectAdm]
        · have ht' : hasSubstr term.data c.data = false := Bool.eq_false_iff.mpr ht
          simp [perFileScript, ha, hr, ht']
    · simp [perFileScript, ha]

/-- C7 counterexample: neither script's admission agrees with the deny-list
policy built on `ignore_exts`: a `.txt` file is outside the deny-list, yet
both scripts reject it. -/
theorem spec_C7_counterexample :
    admitScript "a.txt" ≠ denyListAdmit "a.txt" ∧
      admitDeep "a.txt" ≠ denyListAdmit "a.txt" := by decide

/-- C7 amended: the two scripts use the same file-admission policy, the
explicit allow-list of source extensions tested with `endswith`; the
deny-list `ignore_exts` that search_deep.py defines is read by no admission
decision. -/
theorem spec_C7_amended : ∀ n, admitDeep n = admitScript n := fun _ => rfl

/-- C8: scanning is deterministic up to the filesystem's listing order: two
walks of the same unchanged tree, however each directory's listing is
ordered, produce the same set of match records (and of paths), for both
scripts. -/
theorem spec_C8 {t₁ t₂ : List Entry} (h : ReorderL t₁ t₂) (directory term : String) :
    (∀ p, p ∈ search_files directory t₁ term ↔ p ∈ search_files directory t₂ term) ∧
      ∀ m, m ∈ search_deep_matches t₁ ↔ m ∈ search_deep_matches t₂ := by
  constructor
  · intro p
    rw [search_files, search_files]
    exact mem_scanTree_reorder pruneScript (perFileScript term) h directory p
  · intro m
    rw [search_deep_matches, search_deep_matches]
    exact mem_scanTree_reorder pruneDeep perFileDeep h "." m

/-- C8 witness: two reorderings of one concrete two-file listing produce
the same matches. -/
theorem spec_C8_witness :
    "./b.ts" ∈ search_files "."
        [Entry.file "a.ts" ⟨[Chunk.valid "x"], false⟩,
         Entry.file "b.ts" ⟨[Chunk.valid "xy"], false⟩] "x" ↔
      "./b.ts" ∈ search_files "."
        [Entry.file "b.ts" ⟨[Chunk.valid "xy"], false⟩,
         Entry.file "a.ts" ⟨[Chunk.valid "x"], false⟩] "x" :=
  (spec_C8 (ReorderL.swap _ _ _) "." "x").1 "./b.ts"

/-- C10: `search_files` decodes strictly (no `errors="ignore"`): the scan
over a tree equals the scan over the tree with every invalid-UTF-8 file
removed, and an invalid-UTF-8 file contributes nothing at all — even when
the term's bytes occur in its valid runs — because the decode error is
caught by the per-file handler and the file is skipped. -/
theorem spec_C10 (directory term : String) (tree : List Entry) :
    search_files directory tree term
        = search_files directory
            (dropFailing (fun d => !chunksValid d.chunks) tree) term ∧
      ∀ r n d, chunksValid d.chunks = false → perFileScript term r n d = [] := by
  constructor
  · refine (scanTree_dropFailing ?_ directory tree).symm
    intro r n d hb
    have hcv : chunksValid d.chunks = false := by simpa using hb
    have hread : readStrict d = none := by
      by_cases hio : d.ioError <;> simp [readStrict, hio, hcv]
    simp [perFileScript, hread]
  · intro r n d hcv
    have hread : readStrict d = none := by
      by_cases hio : d.ioError <;> simp [readStrict, hio, hcv]
    simp [perFileScript, hread]

/-- C10 witness: a file whose valid runs contain the term's bytes next to
an undecodable run contributes no entry. -/
theorem spec_C10_witness :
    hasSubstr "<Html".toList (decodeIgnore [Chunk.valid "<Html x", Chunk.invalid]).toList
        = true ∧
      perFileScript "<Html" "." "a.ts" ⟨[Chunk.valid "<Html x", Chunk.invalid], false⟩ = [] :=
  ⟨by decide,
    (spec_C10 "." "<Html" []).2 "." "a.ts"
      ⟨[Chunk.valid "<Html x", Chunk.invalid], false⟩ (by decide)⟩

end FleetSearch
